import Mathlib

/-! Verification of the command-resolution pipeline of a small interactive
shell (src/main.py): whitespace tokenization, variable substitution, alias
expansion, quote re-assembly, the guard decorators around filesystem
commands, and the bounded history buffer.  Python strings are modelled as
`List Char`; `str.split()` / `str.strip()` are embedded as `pySplit` /
`pyStrip`.  The recursive `parse_command` of the source has no termination
guard, so it is embedded with an explicit fuel parameter: `none` means "still
recursing after `fuel` passes", and non-termination of the source shows up as
`none` for every fuel. -/

/-- The six ASCII whitespace characters Python's `str.split()` and
`str.strip()` use (space, tab, newline, carriage return, vertical tab,
form feed). -/
def pyIsSpace (c : Char) : Bool :=
  c == ' ' || c == '\t' || c == '\n' || c == '\r' || c == Char.ofNat 11 || c == Char.ofNat 12

/-- Python's `str.split()` with no argument: split on runs of whitespace,
discarding empty tokens. -/
def pySplit : List Char → List (List Char)
  | [] => []
  | c :: s =>
    if pyIsSpace c then pySplit s
    else
      match s with
      | [] => [[c]]
      | d :: _ =>
        if pyIsSpace d then [c] :: pySplit s
        else
          match pySplit s with
          | [] => [[c]]
          | t :: ts => (c :: t) :: ts

/-- Remove trailing whitespace. -/
def dropTrailingSpaces (s : List Char) : List Char :=
  (s.reverse.dropWhile pyIsSpace).reverse

/-- Python's `str.strip()`: remove leading and trailing whitespace. -/
def pyStrip (s : List Char) : List Char :=
  dropTrailingSpaces (s.dropWhile pyIsSpace)

/-- Python's `" ".join(tokens)`. -/
def joinSpace : List (List Char) → List Char
  | [] => []
  | [t] => t
  | t :: ts => t ++ ' ' :: joinSpace ts

/-- A Python `dict[str, str]` (the variable store `env_variables` and the
alias store `aliases`), as an association list with unique keys. -/
abbrev Store := List (List Char × List Char)

def lookupStore : Store → List Char → Option (List Char)
  | [], _ => none
  | (k, v) :: rest, key => if key = k then some v else lookupStore rest key

/-- Python's `env_variables.get(name, "")`. -/
def getVar (env : Store) (key : List Char) : List Char :=
  (lookupStore env key).getD []

/-- Python's `part.startswith("$")`. -/
def startswith_dollar (t : List Char) : Bool :=
  t.head? == some '$'

/-- Splits a token at the LAST occurrence of `'$'`, mirroring
`t.rfind("$")`: `some (before, after)` where `t = before ++ '$' :: after`
and `after` has no `'$'`; `none` when `t` has no `'$'`. -/
def splitLastDollar : List Char → Option (List Char × List Char)
  | [] => none
  | c :: rest =>
    match splitLastDollar rest with
    | some pa => some (c :: pa.1, pa.2)
    | none => if c = '$' then some ([], rest) else none

/-- One token of the substitution pass in `parse_command` (src/main.py lines
542-546): a token starting with `'$'` becomes
`t[:last_dolar] + env_variables.get(t[last_dolar+1:], "")`; any other token
is unchanged. -/
def substToken (env : Store) (t : List Char) : List Char :=
  if startswith_dollar t then
    match splitLastDollar t with
    | some pa => pa.1 ++ getVar env pa.2
    | none => t
  else t

/-- `parse_command` of src/main.py (lines 534-556), with the variable and
alias stores passed explicitly (the source reads the module-level dicts) and
an explicit fuel bound on the recursion, which the source does not have:
`none` means the source is still recursing after `fuel` passes. -/
def parse_command (env al : Store) : Nat → List Char → Option (List Char × List (List Char))
  | 0, _ => none
  | fuel + 1, line =>
    let stripped := pyStrip line
    if stripped = [] then some ([], [])
    else
      let parts := pySplit stripped
      if parts.any startswith_dollar then
        parse_command env al fuel (joinSpace (parts.map (substToken env)))
      else
        match lookupStore al (parts.headD []) with
        | some replacement => parse_command env al fuel (replacement ++ ' ' :: joinSpace parts.tail)
        | none => some (parts.headD [], parts.tail)

def MAX_HISTORY_SIZE : Nat := 100

/-- `add_to_history` of src/main.py (lines 15-19): append, then pop the
oldest entry when the size bound is exceeded. -/
def add_to_history (commands_hostory : List (List Char)) (command : List Char) :
    List (List Char) :=
  let h := commands_hostory ++ [command]
  if MAX_HISTORY_SIZE < h.length then h.tail else h

/-- Python's `arg.startswith(Char.ofNat 34)` (a double quote). -/
def startsQuote (t : List Char) : Bool :=
  t.head? == some '\"'

def endsQuote (t : List Char) : Bool :=
  t.getLast? == some '\"'

/-- The loop body of `remove_quates` (src/main.py lines 407-430), with the
state `(curr_arg, in_quotes, new_args)` explicit.  After the loop the source
tests `if curr_arg:` (string truthiness) and, when it is non-empty, reports
unmatched quotes and does NOT call the wrapped handler: that outcome is
`none`.  `some new_args` means the wrapped handler is invoked with
`new_args`. -/
def remove_quates_aux :
    List (List Char) → List Char → Bool → List (List Char) → Option (List (List Char))
  | [], curr_arg, _, new_args => if curr_arg.isEmpty then some new_args.reverse else none
  | arg :: rest, curr_arg, in_quotes, new_args =>
    if startsQuote arg && !in_quotes then
      remove_quates_aux rest (arg.drop 1) true new_args
    else if endsQuote arg && in_quotes then
      remove_quates_aux rest [] false ((curr_arg ++ ' ' :: arg.dropLast) :: new_args)
    else if in_quotes then
      remove_quates_aux rest (curr_arg ++ ' ' :: arg) in_quotes new_args
    else
      remove_quates_aux rest curr_arg in_quotes (arg :: new_args)

/-- `remove_quates` of src/main.py as a function from the token list to
either `none` (unmatched-quotes failure, handler not called) or `some args`
(the handler is called with `args`). -/
def remove_quates (args : List (List Char)) : Option (List (List Char)) :=
  remove_quates_aux args [] false []

/-- The `(curr_arg, in_quotes)` state of the `remove_quates` loop after
consuming the whole token list, used to state which inputs leave a quote
open at end of input. -/
def quote_end_state : List (List Char) → List Char → Bool → List Char × Bool
  | [], curr_arg, in_quotes => (curr_arg, in_quotes)
  | arg :: rest, curr_arg, in_quotes =>
    if startsQuote arg && !in_quotes then quote_end_state rest (arg.drop 1) true
    else if endsQuote arg && in_quotes then quote_end_state rest [] false
    else if in_quotes then quote_end_state rest (curr_arg ++ ' ' :: arg) in_quotes
    else quote_end_state rest curr_arg in_quotes

/-- The filesystem as the guard decorators observe it: `os.path.exists`,
`os.path.isdir`, `os.path.isfile`. -/
structure FileSystem where
  pathExists : List Char → Bool
  isdir : List Char → Bool
  isfile : List Char → Bool

/-- A command handler: argument list in, printed lines out. -/
abbrev Handler := List (List Char) → List (List Char)

def noSuchFileMsg (path : List Char) : List Char :=
  ("No such file or directory: ").toList ++ path

def notADirectoryMsg (path : List Char) : List Char :=
  ("Not a directory: ").toList ++ path

def notAFileMsg (path : List Char) : List Char :=
  ("Not a file: ").toList ++ path

/-- `check_path_exist` of src/main.py (lines 166-180), for a positional
path argument: print the diagnostic and stop, or delegate. -/
def check_path_exist (fs : FileSystem) (pos : Nat) (func : Handler) : Handler :=
  fun args =>
    if fs.pathExists (args.getD pos []) then func args else [noSuchFileMsg (args.getD pos [])]

/-- `check_is_directory` of src/main.py (lines 183-197). -/
def check_is_directory (fs : FileSystem) (pos : Nat) (func : Handler) : Handler :=
  fun args =>
    if fs.isdir (args.getD pos []) then func args else [notADirectoryMsg (args.getD pos [])]

/-- `check_is_file` of src/main.py (lines 200-214). -/
def check_is_file (fs : FileSystem) (pos : Nat) (func : Handler) : Handler :=
  fun args =>
    if fs.isfile (args.getD pos []) then func args else [notAFileMsg (args.getD pos [])]

/-- `resolve_defualt` of src/main.py (lines 229-247), for positional calls:
when the designated argument is absent, inject the declared default. -/
def resolve_defualt (default_value : List Char) (pos : Nat) (func : Handler) : Handler :=
  fun args => if args.length ≤ pos then func (args ++ [default_value]) else func args

/-- `ls.run` of src/main.py (lines 250-261): the decorators apply bottom-up,
so the call passes through `resolve_defualt`, then `check_path_exist`, then
`check_is_directory`, then the listing body (abstracted as `core`). -/
def ls_run (fs : FileSystem) (core : Handler) : Handler :=
  resolve_defualt (".").toList 0 (check_path_exist fs 0 (check_is_directory fs 0 core))

/-- `tail.run` of src/main.py (lines 369-389): on `tail` the decorators are
listed with `check_is_file` on top, so the call passes through
`check_is_file` FIRST and only then `check_path_exist`. -/
def tail_run (fs : FileSystem) (core : Handler) : Handler :=
  check_is_file fs 1 (check_path_exist fs 1 core)

/-- The module-level mutable state of src/main.py: the variable store, the
alias store and the history buffer. -/
structure ShellState where
  env_variables : Store
  aliases : Store
  commands_hostory : List (List Char)

/-- The read `env_variables.get(name, "")` as a state-passing operation. -/
def getVarS (st : ShellState) (key : List Char) : ShellState × List Char :=
  (st, getVar st.env_variables key)

/-- The reads `command_name in aliases` / `aliases[command_name]` as one
state-passing operation. -/
def lookupAliasS (st : ShellState) (key : List Char) : ShellState × Option (List Char) :=
  (st, lookupStore st.aliases key)

def substTokenS (st : ShellState) (t : List Char) : ShellState × List Char :=
  if startswith_dollar t then
    match splitLastDollar t with
    | some pa =>
      match getVarS st pa.2 with
      | (st1, v) => (st1, pa.1 ++ v)
    | none => (st, t)
  else (st, t)

def mapSubstS : ShellState → List (List Char) → ShellState × List (List Char)
  | st, [] => (st, [])
  | st, t :: ts =>
    match substTokenS st t with
    | (st1, t1) =>
      match mapSubstS st1 ts with
      | (st2, ts1) => (st2, t1 :: ts1)

/-- `parse_command` with the module state threaded through every store
access, to state what the resolver does to the state. -/
def parse_commandS :
    Nat → ShellState → List Char → ShellState × Option (List Char × List (List Char))
  | 0, st, _ => (st, none)
  | fuel + 1, st, line =>
    let stripped := pyStrip line
    if stripped = [] then (st, some ([], []))
    else
      let parts := pySplit stripped
      if parts.any startswith_dollar then
        match mapSubstS st parts with
        | (st1, parts1) => parse_commandS fuel st1 (joinSpace parts1)
      else
        match lookupAliasS st (parts.headD []) with
        | (st1, some replacement) =>
          parse_commandS fuel st1 (replacement ++ ' ' :: joinSpace parts.tail)
        | (st1, none) => (st1, some (parts.headD [], parts.tail))

/-- The alias store of the cycle scenario: `a -> "b x"`, `b -> "a y"`. -/
def cycleAliases : Store :=
  [(("a").toList, ("b x").toList), (("b").toList, ("a y").toList)]

/-- The alias store of the end-to-end example: `ll -> "ls -la"`. -/
def llStore : Store := [(("ll").toList, ("ls -la").toList)]

/-- Pure alias expansion on token lists, "textually substituting each alias
head in turn, with the original remaining arguments appended after the alias
replacement text", until the head is no longer an alias. -/
inductive ChainResolves (al : Store) :
    List (List Char) → List Char × List (List Char) → Prop
  | done (cmd : List Char) (args : List (List Char)) (h : lookupStore al cmd = none) :
      ChainResolves al (cmd :: args) (cmd, args)
  | expand (cmd : List Char) (args : List (List Char)) (v : List Char)
      (res : List Char × List (List Char)) (h : lookupStore al cmd = some v)
      (hrec : ChainResolves al (pySplit v ++ args) res) :
      ChainResolves al (cmd :: args) res

/-! ### Lemmas about `pySplit`, `pyStrip`, `joinSpace` -/

theorem pySplit_cons_space {c : Char} (s : List Char) (h : pyIsSpace c = true) :
    pySplit (c :: s) = pySplit s := by
  simp [pySplit, h]

theorem pySplit_singleton {c : Char} (h : pyIsSpace c = false) :
    pySplit [c] = [[c]] := by
  simp [pySplit, h]

theorem pySplit_cons_cons_space {x y : Char} (s : List Char) (hx : pyIsSpace x = false)
    (hy : pyIsSpace y = true) : pySplit (x :: y :: s) = [x] :: pySplit (y :: s) := by
  simp [pySplit, hx, hy]

theorem pySplit_cons_cons_nonspace {x y : Char} (s : List Char) (hx : pyIsSpace x = false)
    (hy : pyIsSpace y = false) :
    pySplit (x :: y :: s) =
      match pySplit (y :: s) with
      | [] => [[x]]
      | t :: ts => (x :: t) :: ts := by
  simp [pySplit, hx, hy]

theorem pySplit_cons_ne_nil {c : Char} (s : List Char) (h : pyIsSpace c = false) :
    pySplit (c :: s) ≠ [] := by
  cases s with
  | nil => simp [pySplit_singleton h]
  | cons d s' =>
    cases hd : pyIsSpace d with
    | true => simp [pySplit_cons_cons_space s' h hd]
    | false =>
      rw [pySplit_cons_cons_nonspace s' h hd]
      cases pySplit (d :: s') <;> simp

theorem pySplit_append_space {c : Char} (hc : pyIsSpace c = true) (a : List Char) :
    ∀ b : List Char, pySplit (a ++ c :: b) = pySplit a ++ pySplit b := by
  induction a with
  | nil =>
    intro b
    rw [List.nil_append, pySplit_cons_space b hc]
    rfl
  | cons x a' ih =>
    intro b
    cases hx : pyIsSpace x with
    | true =>
      simp only [List.cons_append]
      rw [pySplit_cons_space _ hx, pySplit_cons_space a' hx, ih b]
    | false =>
      cases a' with
      | nil =>
        simp only [List.nil_append, List.cons_append]
        rw [pySplit_cons_cons_space b hx hc, pySplit_cons_space b hc, pySplit_singleton hx]
        rfl
      | cons y a'' =>
        have h1 := ih b
        simp only [List.cons_append] at h1 ⊢
        cases hy : pyIsSpace y with
        | true =>
          rw [pySplit_cons_cons_space _ hx hy, pySplit_cons_cons_space _ hx hy, h1,
            List.cons_append]
        | false =>
          obtain ⟨t, ts, hts⟩ : ∃ t ts, pySplit (y :: a'') = t :: ts := by
            cases hsp : pySplit (y :: a'') with
            | nil => exact absurd hsp (pySplit_cons_ne_nil a'' hy)
            | cons t ts => exact ⟨t, ts, rfl⟩
          rw [pySplit_cons_cons_nonspace _ hx hy, pySplit_cons_cons_nonspace _ hx hy, h1, hts]
          simp

/-- Every token `pySplit` produces is non-empty and contains no whitespace
character. -/
theorem pySplit_tokens_wf :
    ∀ s : List Char, ∀ t ∈ pySplit s, t ≠ [] ∧ ∀ ch ∈ t, pyIsSpace ch = false := by
  intro s
  induction s with
  | nil => intro t ht; simp [pySplit] at ht
  | cons c s' ih =>
    intro t ht
    cases hc : pyIsSpace c with
    | true =>
      rw [pySplit_cons_space s' hc] at ht
      exact ih t ht
    | false =>
      cases s' with
      | nil =>
        rw [pySplit_singleton hc] at ht
        simp at ht
        subst ht
        constructor
        · simp
        · intro ch hch; simp at hch; subst hch; exact hc
      | cons d s'' =>
        cases hd : pyIsSpace d with
        | true =>
          rw [pySplit_cons_cons_space s'' hc hd] at ht
          rcases List.mem_cons.mp ht with h | h
          · subst h
            refine ⟨by simp, ?_⟩
            intro ch hch; simp at hch; subst hch; exact hc
          · exact ih t h
        | false =>
          rw [pySplit_cons_cons_nonspace s'' hc hd] at ht
          cases hsp : pySplit (d :: s'') with
          | nil => exact absurd hsp (pySplit_cons_ne_nil s'' hd)
          | cons t0 ts0 =>
            rw [hsp] at ht
            rcases List.mem_cons.mp ht with h | h
            · subst h
              have h0 := ih t0 (by rw [hsp]; exact List.mem_cons_self t0 ts0)
              refine ⟨by simp, ?_⟩
              intro ch hch
              rcases List.mem_cons.mp hch with h' | h'
              · subst h'; exact hc
              · exact h0.2 ch h'
            · exact ih t (by rw [hsp]; exact List.mem_cons_of_mem t0 h)

/-- A non-empty whitespace-free string is a single token. -/
theorem pySplit_single_token :
    ∀ t : List Char, t ≠ [] → (∀ ch ∈ t, pyIsSpace ch = false) → pySplit t = [t] := by
  intro t
  induction t with
  | nil => intro h; exact absurd rfl h
  | cons c t' ih =>
    intro _ hch
    have hc : pyIsSpace c = false := hch c (List.mem_cons_self c t')
    cases t' with
    | nil => exact pySplit_singleton hc
    | cons d t'' =>
      have hd : pyIsSpace d = false := hch d (by simp)
      have ht' : pySplit (d :: t'') = [d :: t''] := by
        refine ih (by simp) ?_
        intro ch h'; exact hch ch (List.mem_cons_of_mem c h')
      rw [pySplit_cons_cons_nonspace t'' hc hd, ht']

/-- `pySplit` of a space-joined list of well-formed tokens recovers the
tokens. -/
theorem pySplit_joinSpace :
    ∀ parts : List (List Char),
      (∀ t ∈ parts, t ≠ [] ∧ ∀ ch ∈ t, pyIsSpace ch = false) →
      pySplit (joinSpace parts) = parts := by
  intro parts
  induction parts with
  | nil => intro _; rfl
  | cons t parts' ih =>
    intro hwf
    cases parts' with
    | nil =>
      have h := hwf t (by simp)
      simpa [joinSpace] using pySplit_single_token t h.1 h.2
    | cons u parts'' =>
      have hsp : pyIsSpace ' ' = true := by decide
      have h := hwf t (by simp)
      calc pySplit (joinSpace (t :: u :: parts''))
          = pySplit (t ++ ' ' :: joinSpace (u :: parts'')) := by rfl
        _ = pySplit t ++ pySplit (joinSpace (u :: parts'')) := pySplit_append_space hsp t _
        _ = [t] ++ (u :: parts'') := by
            rw [pySplit_single_token t h.1 h.2, ih (fun v hv => hwf v (List.mem_cons_of_mem t hv))]
        _ = t :: u :: parts'' := rfl

/-- Dropping leading whitespace does not change the tokenization. -/
theorem pySplit_dropWhile (s : List Char) :
    pySplit (s.dropWhile pyIsSpace) = pySplit s := by
  induction s with
  | nil => rfl
  | cons c s' ih =>
    cases hc : pyIsSpace c with
    | true => rw [List.dropWhile_cons_of_pos (by simp [hc]), ih, pySplit_cons_space s' hc]
    | false => rw [List.dropWhile_cons_of_neg (by simp [hc])]

theorem dropTrailingSpaces_append (s : List Char) (c : Char) :
    dropTrailingSpaces (s ++ [c]) =
      if pyIsSpace c then dropTrailingSpaces s else s ++ [c] := by
  cases hc : pyIsSpace c with
  | true =>
    simp [dropTrailingSpaces, List.dropWhile_cons, hc]
  | false =>
    simp [dropTrailingSpaces, List.dropWhile_cons, hc]

/-- Appending a whitespace character does not change the tokenization. -/
theorem pySplit_append_space_char {c : Char} (s : List Char) (hc : pyIsSpace c = true) :
    pySplit (s ++ [c]) = pySplit s := by
  have := pySplit_append_space hc s []
  simpa [pySplit] using this

/-- Dropping trailing whitespace does not change the tokenization. -/
theorem pySplit_dropTrailing (s : List Char) :
    pySplit (dropTrailingSpaces s) = pySplit s := by
  induction s using List.reverseRecOn with
  | nil => rfl
  | append_singleton s' c ih =>
    rw [dropTrailingSpaces_append]
    cases hc : pyIsSpace c with
    | true => rw [if_pos (by simp [hc]), ih, pySplit_append_space_char s' hc]
    | false => rw [if_neg (by simp [hc])]

/-- Stripping does not change the tokenization: `line.strip().split()` is
`line.split()`. -/
theorem pySplit_pyStrip (s : List Char) : pySplit (pyStrip s) = pySplit s := by
  rw [pyStrip, pySplit_dropTrailing, pySplit_dropWhile]

/-- A string that tokenizes to nothing is all whitespace. -/
theorem pySplit_eq_nil_allspace :
    ∀ s : List Char, pySplit s = [] → ∀ c ∈ s, pyIsSpace c = true := by
  intro s
  induction s with
  | nil => intro _ c hc; simp at hc
  | cons c s' ih =>
    intro h d hd
    cases hc : pyIsSpace c with
    | false => exact absurd h (pySplit_cons_ne_nil s' hc)
    | true =>
      rw [pySplit_cons_space s' hc] at h
      rcases List.mem_cons.mp hd with h' | h'
      · subst h'; exact hc
      · exact ih h d h'

theorem pyStrip_eq_nil_iff (s : List Char) : pyStrip s = [] ↔ pySplit s = [] := by
  constructor
  · intro h
    rw [← pySplit_pyStrip s, h]
    rfl
  · intro h
    have hall := pySplit_eq_nil_allspace s h
    have hdrop : s.dropWhile pyIsSpace = [] := by
      rw [List.dropWhile_eq_nil_iff]
      intro x hx
      simp [hall x hx]
    rw [pyStrip, hdrop]
    rfl

/-! ### The resolver's one-pass unfolding -/

/-- One pass of `parse_command`, phrased over the tokenization of the raw
line (using that stripping does not change the tokens). -/
theorem parse_command_succ (env al : Store) (fuel : Nat) (line : List Char) :
    parse_command env al (fuel + 1) line =
      if pySplit line = [] then some ([], [])
      else if (pySplit line).any startswith_dollar then
        parse_command env al fuel (joinSpace ((pySplit line).map (substToken env)))
      else
        match lookupStore al ((pySplit line).headD []) with
        | some replacement =>
          parse_command env al fuel (replacement ++ ' ' :: joinSpace (pySplit line).tail)
        | none => some ((pySplit line).headD [], (pySplit line).tail) := by
  rw [parse_command]
  by_cases hs : pyStrip line = []
  · rw [if_pos hs, if_pos ((pyStrip_eq_nil_iff line).mp hs)]
  · rw [if_neg hs, if_neg (fun h => hs ((pyStrip_eq_nil_iff line).mpr h)),
      pySplit_pyStrip line]

/-- `parse_command` looks at the raw line only through its tokenization. -/
theorem parse_command_congr (env al : Store) :
    ∀ (fuel : Nat) (l1 l2 : List Char), pySplit l1 = pySplit l2 →
      parse_command env al fuel l1 = parse_command env al fuel l2 := by
  intro fuel
  induction fuel with
  | zero => intro l1 l2 _; rfl
  | succ fuel ih =>
    intro l1 l2 h
    rw [parse_command_succ, parse_command_succ, h]

/-! ### Substitution helpers -/

theorem splitLastDollar_eq_none (s : List Char) (h : '$' ∉ s) : splitLastDollar s = none := by
  induction s with
  | nil => rfl
  | cons c s' ih =>
    have hc : ¬ c = '$' := fun e => h (e ▸ List.mem_cons_self c s')
    rw [splitLastDollar, ih (fun hm => h (List.mem_cons_of_mem c hm))]
    simp [hc]

theorem splitLastDollar_append (p a : List Char) (h : '$' ∉ a) :
    splitLastDollar (p ++ '$' :: a) = some (p, a) := by
  induction p with
  | nil => simp [splitLastDollar, splitLastDollar_eq_none a h]
  | cons c p' ih => simp [splitLastDollar, ih]

theorem substToken_dollar_cons (env : Store) (name : List Char) (h : '$' ∉ name) :
    substToken env ('$' :: name) = getVar env name := by
  have hs : splitLastDollar ('$' :: name) = some ([], name) := splitLastDollar_append [] name h
  simp [substToken, startswith_dollar, hs]

/-! ### Claim theorems: blank line, variable substitution -/

/-- Claim C9: an input line that is empty after trimming resolves to the
no-op result (empty command name, empty argument list); the conclusion holds
for every variable store and alias store, so neither store is consulted. -/
theorem c9_blank_line_noop (env al : Store) (fuel : Nat) (line : List Char)
    (h : pyStrip line = []) :
    parse_command env al (fuel + 1) line = some ([], []) := by
  simp [parse_command, h]

theorem c9_blank_line_noop_witness :
    pyStrip (("   ").toList) = [] ∧ parse_command [] [] 1 (("   ").toList) = some ([], []) :=
  ⟨by decide, c9_blank_line_noop [] [] 0 (("   ").toList) (by decide)⟩

/-- Claim C5: a `$name` reference whose name is present in the variable
store is replaced by the stored value, a missing name by the empty string;
end-to-end, with variable store `X = abc` the line `echo $X` resolves to
command `echo` with argument list `[abc]`. -/
theorem c5_variable_substitution :
    (∀ (env : Store) (name v : List Char), '$' ∉ name →
      lookupStore env name = some v → substToken env ('$' :: name) = v) ∧
    (∀ (env : Store) (name : List Char), '$' ∉ name →
      lookupStore env name = none → substToken env ('$' :: name) = []) ∧
    parse_command [(("X").toList, ("abc").toList)] [] 5 (("echo $X").toList) =
      some (("echo").toList, [("abc").toList]) := by
  refine ⟨?_, ?_, by decide⟩
  · intro env name v h hl
    rw [substToken_dollar_cons env name h]
    simp [getVar, hl]
  · intro env name h hl
    rw [substToken_dollar_cons env name h]
    simp [getVar, hl]

/-- Claim C2 fails on the code: with variable store `b = Z`, the token
`a$b` contains a `$` after a non-empty literal prefix, but the resolver
leaves it unchanged, because the substitution pass triggers only on tokens
that START with `$` (`part.startswith` at src/main.py line 540): `echo a$b`
resolves with the literal argument `a$b`, not `aZ`. -/
theorem c2_counterexample :
    parse_command [(("b").toList, ("Z").toList)] [] 5 (("echo a$b").toList) =
      some (("echo").toList, [("a$b").toList]) ∧
    ("a$b").toList ≠ ("aZ").toList := by
  exact ⟨by decide, by decide⟩

/-- Claim C2 as amended: a resolver pass runs when some token STARTS with
`$`; it rewrites every `$`-leading token by replacing the portion from the
token's last `$` onward with the store value of the name after that `$`
(the rightmost `$` wins and the prefix before it is preserved), leaves every
other token alone — even one containing `$` after a literal prefix — and
recurses on the rewritten line. -/
theorem c2_amended_substitution :
    (∀ (env al : Store) (fuel : Nat) (line : List Char),
      (pySplit line).any startswith_dollar = true →
      parse_command env al (fuel + 1) line =
        parse_command env al fuel (joinSpace ((pySplit line).map (substToken env)))) ∧
    (∀ (env : Store) (p a : List Char), '$' ∉ a →
      substToken env (p ++ '$' :: a) =
        if startswith_dollar (p ++ '$' :: a) then p ++ getVar env a else p ++ '$' :: a) := by
  constructor
  · intro env al fuel line h
    have hne : pySplit line ≠ [] := by
      intro e
      rw [e] at h
      simp at h
    rw [parse_command_succ, if_neg hne, if_pos h]
  · intro env p a h
    cases hd : startswith_dollar (p ++ '$' :: a) with
    | true => simp [substToken, hd, splitLastDollar_append p a h]
    | false => simp [substToken, hd]

/-! ### Quote re-assembly (C4) and history (C7) -/

/-- `remove_quates` fails (and withholds the handler) exactly when the
accumulated `curr_arg` is non-empty once the tokens run out: the source's
final test is `if curr_arg:`, not `if in_quotes:`. -/
theorem remove_quates_aux_eq_none_iff :
    ∀ (ts : List (List Char)) (curr : List Char) (inq : Bool) (acc : List (List Char)),
      remove_quates_aux ts curr inq acc = none ↔ (quote_end_state ts curr inq).1 ≠ [] := by
  intro ts
  induction ts with
  | nil =>
    intro curr inq acc
    cases curr <;> simp [remove_quates_aux, quote_end_state]
  | cons a rest ih =>
    intro curr inq acc
    rw [remove_quates_aux, quote_end_state]
    by_cases h1 : (startsQuote a && !inq) = true
    · rw [if_pos h1, if_pos h1]
      exact ih _ _ _
    · rw [if_neg h1, if_neg h1]
      by_cases h2 : (endsQuote a && inq) = true
      · rw [if_pos h2, if_pos h2]
        exact ih _ _ _
      · rw [if_neg h2, if_neg h2]
        by_cases h3 : inq = true
        · rw [if_pos h3, if_pos h3]
          exact ih _ _ _
        · rw [if_neg h3, if_neg h3]
          exact ih _ _ _

/-- Claim C4 fails on the code: a lone `"` token opens quotes that are never
closed, yet `remove_quates` raises no unmatched-quotes failure and invokes
the wrapped handler with an empty argument list, because the final check
tests the accumulated text (`if curr_arg:`), which is empty here. -/
theorem c4_counterexample :
    remove_quates [[ '\"' ]] = some [] ∧ remove_quates [[ '\"' ]] ≠ none :=
  ⟨by decide, by decide⟩

/-- Claim C4 as amended: when a quote is opened and never closed by end of
input AND the accumulated quoted content is non-empty at end of input, the
operation fails with the unmatched-quotes error and the wrapped handler is
not invoked (`none` produces no argument list at all); an unclosed run whose
accumulated content is empty (a lone `"` as last token) is NOT detected. -/
theorem c4_amended_unmatched_quotes (args : List (List Char))
    (hopen : (quote_end_state args [] false).2 = true)
    (hcurr : (quote_end_state args [] false).1 ≠ []) :
    remove_quates args = none := by
  rw [remove_quates]
  exact (remove_quates_aux_eq_none_iff args [] false []).mpr hcurr

theorem c4_amended_unmatched_quotes_witness :
    (quote_end_state [("echo").toList, ("\"hello").toList] [] false).2 = true ∧
    (quote_end_state [("echo").toList, ("\"hello").toList] [] false).1 ≠ [] ∧
    remove_quates [("echo").toList, ("\"hello").toList] = none :=
  ⟨by decide, by decide, c4_amended_unmatched_quotes _ (by decide) (by decide)⟩

/-- Claim C7: the history buffer holds at most 100 lines; an insertion
appends at the end; at capacity the oldest entry is evicted; inserting 101
lines into an empty buffer leaves exactly the last 100, in insertion
order. -/
theorem c7_history_bounded :
    (∀ (h : List (List Char)) (c : List Char),
      h.length ≤ MAX_HISTORY_SIZE → (add_to_history h c).length ≤ MAX_HISTORY_SIZE) ∧
    (∀ (h : List (List Char)) (c : List Char),
      h.length < MAX_HISTORY_SIZE → add_to_history h c = h ++ [c]) ∧
    (∀ (h : List (List Char)) (c : List Char),
      h.length = MAX_HISTORY_SIZE → add_to_history h c = h.tail ++ [c]) ∧
    (∀ lines : List (List Char), lines.length = MAX_HISTORY_SIZE + 1 →
      List.foldl add_to_history [] lines = lines.tail) := by
  have hsmall : ∀ lines : List (List Char), lines.length ≤ MAX_HISTORY_SIZE →
      List.foldl add_to_history [] lines = lines := by
    intro lines
    induction lines using List.reverseRecOn with
    | nil => intro _; rfl
    | append_singleton l c ihl =>
      intro hlen
      rw [List.foldl_append]
      simp only [List.foldl_cons, List.foldl_nil]
      rw [ihl (by simp at hlen; omega)]
      have hc : ¬ (MAX_HISTORY_SIZE < l.length + 1) := by
        simp at hlen
        omega
      simp [add_to_history, hc]
  refine ⟨?_, ?_, ?_, ?_⟩
  · intro h c hl
    simp only [add_to_history]
    split
    · simp only [List.length_tail, List.length_append, List.length_singleton]
      omega
    · rename_i hgt
      simp only [List.length_append, List.length_singleton] at hgt ⊢
      omega
  · intro h c hl
    have hc : ¬ (MAX_HISTORY_SIZE < h.length + 1) := by
      omega
    simp [add_to_history, hc]
  · intro h c hl
    cases h with
    | nil => simp [MAX_HISTORY_SIZE] at hl
    | cons d h' =>
      simp only [List.length_cons] at hl
      have hc : MAX_HISTORY_SIZE < h'.length + 1 + 1 := by omega
      simp [add_to_history, hc]
  · intro lines hlen
    induction lines using List.reverseRecOn with
    | nil => simp [MAX_HISTORY_SIZE] at hlen
    | append_singleton l c _ =>
      rw [List.foldl_append]
      simp only [List.foldl_cons, List.foldl_nil]
      rw [hsmall l (by simp at hlen; omega)]
      cases l with
      | nil => simp [MAX_HISTORY_SIZE] at hlen
      | cons d l' =>
        simp at hlen
        have hc : MAX_HISTORY_SIZE < l'.length + 1 + 1 := by omega
        simp [add_to_history, hc]

/-- 101 distinct concrete lines, for exercising the history bound. -/
def histLines : List (List Char) :=
  (List.range (MAX_HISTORY_SIZE + 1)).map (fun n => [Char.ofNat (48 + n % 10)])

theorem c7_history_bounded_witness :
    histLines.length = MAX_HISTORY_SIZE + 1 ∧
    List.foldl add_to_history [] histLines = histLines.tail :=
  ⟨by simp [histLines], c7_history_bounded.2.2.2 histLines (by simp [histLines])⟩

/-! ### The alias cycle (C1) -/

/-- Under the cyclic alias store `a -> "b x"`, `b -> "a y"`, any line whose
head token is `a` or `b` (with no `$`-leading token) makes `parse_command`
recurse past every fuel bound: the source, which has no bound, never
returns. -/
theorem cycle_aliases_no_fuel (env : Store) :
    ∀ (fuel : Nat) (line : List Char),
      pySplit line ≠ [] →
      ((pySplit line).headD [] = ("a").toList ∨ (pySplit line).headD [] = ("b").toList) →
      (pySplit line).any startswith_dollar = false →
      parse_command env cycleAliases fuel line = none := by
  intro fuel
  induction fuel with
  | zero => intro line _ _ _; rfl
  | succ fuel ih =>
    intro line hne hhead hnd
    obtain ⟨cmd, args, hparts⟩ : ∃ cmd args, pySplit line = cmd :: args := by
      cases h : pySplit line with
      | nil => exact absurd h hne
      | cons cmd args => exact ⟨cmd, args, rfl⟩
    have hargswf : ∀ t ∈ args, t ≠ [] ∧ ∀ ch ∈ t, pyIsSpace ch = false := by
      intro t ht
      exact pySplit_tokens_wf line t (by rw [hparts]; exact List.mem_cons_of_mem cmd ht)
    have hjoin : pySplit (joinSpace args) = args := pySplit_joinSpace args hargswf
    rw [hparts] at hhead hnd
    simp only [List.headD_cons] at hhead
    have hargs_any : args.any startswith_dollar = false := by
      rw [List.any_cons] at hnd
      exact (Bool.or_eq_false_iff.mp hnd).2
    have hnd' : ¬ ((cmd :: args).any startswith_dollar = true) := by simp [hnd]
    rw [parse_command_succ, hparts, if_neg (List.cons_ne_nil cmd args), if_neg hnd']
    simp only [List.headD_cons, List.tail_cons]
    rcases hhead with hcmd | hcmd <;> subst hcmd
    · rw [show lookupStore cycleAliases (("a").toList) = some (("b x").toList) from by decide]
      have hsplitnew : pySplit ((("b x").toList) ++ ' ' :: joinSpace args)
          = ("b").toList :: ("x").toList :: args := by
        rw [pySplit_append_space (by decide) (("b x").toList) (joinSpace args), hjoin,
          show pySplit (("b x").toList) = [("b").toList, ("x").toList] from by decide]
        rfl
      apply ih
      · rw [hsplitnew]
        exact List.cons_ne_nil _ _
      · rw [hsplitnew]
        right
        rfl
      · rw [hsplitnew]
        simp only [List.any_cons, hargs_any]
        decide
    · rw [show lookupStore cycleAliases (("b").toList) = some (("a y").toList) from by decide]
      have hsplitnew : pySplit ((("a y").toList) ++ ' ' :: joinSpace args)
          = ("a").toList :: ("y").toList :: args := by
        rw [pySplit_append_space (by decide) (("a y").toList) (joinSpace args), hjoin,
          show pySplit (("a y").toList) = [("a").toList, ("y").toList] from by decide]
        rfl
      apply ih
      · rw [hsplitnew]
        exact List.cons_ne_nil _ _
      · rw [hsplitnew]
        left
        rfl
      · rw [hsplitnew]
        simp only [List.any_cons, hargs_any]
        decide

/-- Claim C1 (the code side): with the cyclic alias store `a -> "b x"`,
`b -> "a y"`, resolving the line `a` does not finish within ANY number of
recursive passes — the source code, which recurses with no cycle guard and
defines no alias-cycle failure, loops forever instead of failing with the
required error. -/
theorem c1_alias_cycle_diverges (fuel : Nat) :
    parse_command [] cycleAliases fuel (("a").toList) = none := by
  apply cycle_aliases_no_fuel
  · decide
  · left
    decide
  · decide

/-! ### Resolver outputs and idempotence (C8) -/

/-- Every successful `parse_command` result is either the no-op pair (blank
line) or a head/arguments split of well-formed tokens in which no token
starts with `$` and the command name is not an alias key. -/
theorem parse_command_output_wf (env al : Store) :
    ∀ (fuel : Nat) (line cmd : List Char) (args : List (List Char)),
      parse_command env al fuel line = some (cmd, args) →
      (cmd = [] ∧ args = []) ∨
      (lookupStore al cmd = none ∧
        (∀ t ∈ cmd :: args, t ≠ [] ∧ ∀ ch ∈ t, pyIsSpace ch = false) ∧
        (cmd :: args).any startswith_dollar = false) := by
  intro fuel
  induction fuel with
  | zero =>
    intro line cmd args h
    exact absurd h (by simp [parse_command])
  | succ fuel ih =>
    intro line cmd args h
    rw [parse_command_succ] at h
    by_cases h0 : pySplit line = []
    · rw [if_pos h0] at h
      left
      have h' : (([], []) : List Char × List (List Char)) = (cmd, args) := Option.some.inj h
      obtain ⟨hc, ha⟩ := Prod.mk.injEq .. ▸ h'
      exact ⟨hc.symm, ha.symm⟩
    · rw [if_neg h0] at h
      by_cases h1 : (pySplit line).any startswith_dollar = true
      · rw [if_pos h1] at h
        exact ih _ _ _ h
      · rw [if_neg h1] at h
        obtain ⟨c0, a0, hparts⟩ : ∃ c0 a0, pySplit line = c0 :: a0 := by
          cases hp : pySplit line with
          | nil => exact absurd hp h0
          | cons c0 a0 => exact ⟨c0, a0, rfl⟩
        rw [hparts] at h
        simp only [List.headD_cons, List.tail_cons] at h
        cases hlook : lookupStore al c0 with
        | some replacement =>
          rw [hlook] at h
          exact ih _ _ _ h
        | none =>
          rw [hlook] at h
          have h' : (c0, a0) = (cmd, args) := Option.some.inj h
          obtain ⟨hc, ha⟩ := Prod.ext_iff.mp h'
          subst hc
          subst ha
          right
          refine ⟨hlook, ?_, ?_⟩
          · intro t ht
            exact pySplit_tokens_wf line t (hparts ▸ ht)
          · rw [← hparts]
            exact Bool.of_not_eq_true h1

/-- Claim C8: the resolver is idempotent at its fixpoint: whenever
`parse_command` returns `(cmd, args)` and no token of the line
`cmd args...` contains `$`, re-running the resolver on that line returns
the same pair (at any fuel: one pass suffices). -/
theorem c8_resolver_idempotent (env al : Store) (fuel : Nat) (line cmd : List Char)
    (args : List (List Char)) (h : parse_command env al fuel line = some (cmd, args))
    (hnd : ∀ t ∈ cmd :: args, '$' ∉ t) (fuel2 : Nat) :
    parse_command env al (fuel2 + 1) (joinSpace (cmd :: args)) = some (cmd, args) := by
  rcases parse_command_output_wf env al fuel line cmd args h with ⟨hc, ha⟩ | ⟨hlook, hwf, hany⟩
  · subst hc
    subst ha
    rw [parse_command_succ]
    simp [joinSpace, pySplit]
  · have hsplit : pySplit (joinSpace (cmd :: args)) = cmd :: args := pySplit_joinSpace _ hwf
    rw [parse_command_succ, hsplit, if_neg (List.cons_ne_nil cmd args),
      if_neg (by simp [hany])]
    simp only [List.headD_cons, List.tail_cons]
    rw [hlook]

theorem c8_resolver_idempotent_witness :
    parse_command [] [] 1 (("echo hi").toList) = some (("echo").toList, [("hi").toList]) ∧
    (∀ t ∈ ("echo").toList :: [("hi").toList], '$' ∉ t) ∧
    parse_command [] [] 1 (joinSpace (("echo").toList :: [("hi").toList])) =
      some (("echo").toList, [("hi").toList]) :=
  ⟨by decide, by decide,
    c8_resolver_idempotent [] [] 1 (("echo hi").toList) (("echo").toList) [("hi").toList]
      (by decide) (by decide) 0⟩

/-! ### The resolver only reads the interpreter state (C10) -/

theorem substTokenS_eq (st : ShellState) (t : List Char) :
    substTokenS st t = (st, substToken st.env_variables t) := by
  cases hsd : startswith_dollar t with
  | false => simp [substTokenS, substToken, hsd]
  | true =>
    cases hsp : splitLastDollar t with
    | none => simp [substTokenS, substToken, getVarS, hsd, hsp]
    | some pa => simp [substTokenS, substToken, getVarS, hsd, hsp]

theorem mapSubstS_eq (st : ShellState) :
    ∀ ts : List (List Char), mapSubstS st ts = (st, ts.map (substToken st.env_variables)) := by
  intro ts
  induction ts with
  | nil => rfl
  | cons t ts' ih => simp [mapSubstS, substTokenS_eq, ih]

/-- Claim C10: resolution is read-only on the interpreter state: the
state-threaded resolver returns the variable store, alias store and history
buffer unchanged, and its answer is the pure resolver's answer on the
current stores. -/
theorem c10_resolver_read_only :
    ∀ (fuel : Nat) (st : ShellState) (line : List Char),
      parse_commandS fuel st line =
        (st, parse_command st.env_variables st.aliases fuel line) := by
  intro fuel
  induction fuel with
  | zero => intro st line; rfl
  | succ fuel ih =>
    intro st line
    by_cases h0 : pyStrip line = []
    · simp [parse_commandS, parse_command, h0]
    · by_cases h1 : (pySplit (pyStrip line)).any startswith_dollar = true
      · simp [parse_commandS, parse_command, h0, h1, mapSubstS_eq, ih]
      · cases hlook : lookupStore st.aliases ((pySplit (pyStrip line)).head?.getD []) with
        | some replacement =>
          simp [parse_commandS, parse_command, h0, h1, lookupAliasS, hlook, ih]
        | none => simp [parse_commandS, parse_command, h0, h1, lookupAliasS, hlook]

/-! ### Guard ordering (C3) -/

/-- Claim C3 on the code: for a path that does not exist (hence also is not
a regular file), `ls` reports the path-not-found diagnostic, because its
`check_path_exist` decorator runs before `check_is_directory`; but `tail`,
whose decorators are stacked in the opposite order (src/main.py lines
374-376), runs `check_is_file` FIRST and reports the file-type diagnostic —
never the path-not-found one the claim requires; the two diagnostics
differ. -/
theorem c3_guard_order (fs : FileSystem) (core : Handler) (p n : List Char)
    (hex : fs.pathExists p = false) (hf : fs.isfile p = false) :
    ls_run fs core [p] = [noSuchFileMsg p] ∧
    tail_run fs core [n, p] = [notAFileMsg p] ∧
    notAFileMsg p ≠ noSuchFileMsg p := by
  refine ⟨?_, ?_, ?_⟩
  · simp [ls_run, resolve_defualt, check_path_exist, check_is_directory, hex]
  · simp [tail_run, check_is_file, check_path_exist, hf]
  · intro h
    have hlen := congrArg List.length h
    simp only [notAFileMsg, noSuchFileMsg, List.length_append] at hlen
    have h1 : (("Not a file: ").toList).length = 12 := by decide
    have h2 : (("No such file or directory: ").toList).length = 27 := by decide
    omega

/-- A filesystem with no entries at all. -/
def emptyFS : FileSystem := ⟨fun _ => false, fun _ => false, fun _ => false⟩

/-- A command body that prints nothing. -/
def silentHandler : Handler := fun _ => []

theorem c3_guard_order_witness :
    emptyFS.pathExists (("/nofile").toList) = false ∧
    emptyFS.isfile (("/nofile").toList) = false ∧
    (ls_run emptyFS silentHandler [("/nofile").toList] =
        [noSuchFileMsg (("/nofile").toList)] ∧
      tail_run emptyFS silentHandler [("5").toList, ("/nofile").toList] =
        [notAFileMsg (("/nofile").toList)] ∧
      notAFileMsg (("/nofile").toList) ≠ noSuchFileMsg (("/nofile").toList)) :=
  ⟨rfl, rfl,
    c3_guard_order emptyFS silentHandler (("/nofile").toList) (("5").toList) rfl rfl⟩

/-! ### Acyclic alias chains (C6) -/

/-- A line whose head is not an alias key (and with no `$`-leading token)
resolves in one pass to its head and tail. -/
theorem chain_terminal (env al : Store) (line cmd : List Char) (args : List (List Char))
    (hparts : pySplit line = cmd :: args)
    (hnd : (cmd :: args).any startswith_dollar = false)
    (hlook : lookupStore al cmd = none) :
    parse_command env al 1 line = some (cmd, args) := by
  rw [parse_command_succ, hparts, if_neg (List.cons_ne_nil cmd args), if_neg (by simp [hnd])]
  simp only [List.headD_cons, List.tail_cons]
  rw [hlook]

/-- Alias expansion along an acyclic store terminates: when `rank` witnesses
acyclicity (every alias value whose head token is again an alias key points
to a strictly smaller rank), every alias value tokenizes to a non-empty,
`$`-free token list, and the line itself is non-empty with no `$`-leading
token, some fuel makes `parse_command` answer, and the answer is exactly the
`ChainResolves` textual-substitution result. -/
theorem chain_aux (env al : Store) (rank : List Char → Nat)
    (hacyc : ∀ k v k1 v1, lookupStore al k = some v → (pySplit v).head? = some k1 →
      lookupStore al k1 = some v1 → rank k1 < rank k)
    (hvals : ∀ k v, lookupStore al k = some v →
      pySplit v ≠ [] ∧ (pySplit v).any startswith_dollar = false) :
    ∀ (n : Nat) (line : List Char),
      pySplit line ≠ [] →
      (pySplit line).any startswith_dollar = false →
      (∀ v, lookupStore al ((pySplit line).headD []) = some v →
        rank ((pySplit line).headD []) < n) →
      ∃ fuel res, ChainResolves al (pySplit line) res ∧
        parse_command env al fuel line = some res := by
  intro n
  induction n with
  | zero =>
    intro line hne hnd hrank
    obtain ⟨cmd, args, hparts⟩ : ∃ cmd args, pySplit line = cmd :: args := by
      cases hp : pySplit line with
      | nil => exact absurd hp hne
      | cons cmd args => exact ⟨cmd, args, rfl⟩
    rw [hparts] at hnd hrank
    simp only [List.headD_cons] at hrank
    cases hlook : lookupStore al cmd with
    | some v => exact absurd (hrank v hlook) (Nat.not_lt_zero _)
    | none =>
      exact ⟨1, (cmd, args), hparts ▸ ChainResolves.done cmd args hlook,
        chain_terminal env al line cmd args hparts hnd hlook⟩
  | succ n ih =>
    intro line hne hnd hrank
    obtain ⟨cmd, args, hparts⟩ : ∃ cmd args, pySplit line = cmd :: args := by
      cases hp : pySplit line with
      | nil => exact absurd hp hne
      | cons cmd args => exact ⟨cmd, args, rfl⟩
    rw [hparts] at hnd hrank
    simp only [List.headD_cons] at hrank
    cases hlook : lookupStore al cmd with
    | none =>
      exact ⟨1, (cmd, args), hparts ▸ ChainResolves.done cmd args hlook,
        chain_terminal env al line cmd args hparts hnd hlook⟩
    | some v =>
      have hargswf : ∀ t ∈ args, t ≠ [] ∧ ∀ ch ∈ t, pyIsSpace ch = false := by
        intro t ht
        exact pySplit_tokens_wf line t (by rw [hparts]; exact List.mem_cons_of_mem cmd ht)
      have hjoin : pySplit (joinSpace args) = args := pySplit_joinSpace args hargswf
      obtain ⟨hvne, hvnd⟩ := hvals cmd v hlook
      obtain ⟨k1, vrest, hvparts⟩ : ∃ k1 vrest, pySplit v = k1 :: vrest := by
        cases hp : pySplit v with
        | nil => exact absurd hp hvne
        | cons k1 vrest => exact ⟨k1, vrest, rfl⟩
      have hargs_any : args.any startswith_dollar = false := by
        rw [List.any_cons] at hnd
        exact (Bool.or_eq_false_iff.mp hnd).2
      have hsplitnew : pySplit (v ++ ' ' :: joinSpace args) = pySplit v ++ args := by
        rw [pySplit_append_space (by decide) v (joinSpace args), hjoin]
      have hne2 : pySplit (v ++ ' ' :: joinSpace args) ≠ [] := by
        rw [hsplitnew, hvparts]
        exact List.cons_ne_nil _ _
      have hnd2 : (pySplit (v ++ ' ' :: joinSpace args)).any startswith_dollar = false := by
        rw [hsplitnew, List.any_append, hvnd, hargs_any]
        rfl
      have hrank2 : ∀ v1,
          lookupStore al ((pySplit (v ++ ' ' :: joinSpace args)).headD []) = some v1 →
          rank ((pySplit (v ++ ' ' :: joinSpace args)).headD []) < n := by
        rw [hsplitnew, hvparts]
        simp only [List.cons_append, List.headD_cons]
        intro v1 hl1
        have ha : rank k1 < rank cmd :=
          hacyc cmd v k1 v1 hlook (by rw [hvparts]; rfl) hl1
        have hb : rank cmd < n + 1 := hrank v hlook
        omega
      obtain ⟨fuel, res, hcr, hpc⟩ := ih (v ++ ' ' :: joinSpace args) hne2 hnd2 hrank2
      rw [hsplitnew] at hcr
      refine ⟨fuel + 1, res, ?_, ?_⟩
      · rw [hparts]
        exact ChainResolves.expand cmd args v res hlook hcr
      · rw [parse_command_succ, hparts, if_neg (List.cons_ne_nil cmd args),
          if_neg (by simp [hnd])]
        simp only [List.headD_cons, List.tail_cons]
        rw [hlook]
        exact hpc

/-- Claim C6: for every acyclic chain of aliases (acyclicity witnessed by a
rank function that drops along the store, with alias values tokenizing to
non-empty `$`-free command lines and a `$`-free non-blank input line),
resolution terminates at some fuel, and the result is exactly the
`ChainResolves` relation's answer: each alias head textually substituted in
turn, the original remaining arguments appended after the replacement text;
in particular, with alias store `ll -> "ls -la"`, the input line `ll /tmp`
resolves to command `ls` with argument list `[-la, /tmp]`. -/
theorem c6_acyclic_alias_chain (env al : Store) (rank : List Char → Nat) (line : List Char)
    (hacyc : ∀ k v k1 v1, lookupStore al k = some v → (pySplit v).head? = some k1 →
      lookupStore al k1 = some v1 → rank k1 < rank k)
    (hvals : ∀ k v, lookupStore al k = some v →
      pySplit v ≠ [] ∧ (pySplit v).any startswith_dollar = false)
    (hne : pySplit line ≠ [])
    (hnd : (pySplit line).any startswith_dollar = false) :
    (∃ fuel res, ChainResolves al (pySplit line) res ∧
      parse_command env al fuel line = some res) ∧
    parse_command [] llStore 2 (("ll /tmp").toList) =
      some (("ls").toList, [("-la").toList, ("/tmp").toList]) := by
  refine ⟨?_, by decide⟩
  exact chain_aux env al rank hacyc hvals (rank ((pySplit line).headD []) + 1) line hne hnd
    (fun v _ => Nat.lt_succ_self _)

theorem c6_acyclic_alias_chain_witness :
    (∃ fuel res, ChainResolves llStore (pySplit (("ll /tmp").toList)) res ∧
      parse_command [] llStore fuel (("ll /tmp").toList) = some res) ∧
    parse_command [] llStore 2 (("ll /tmp").toList) =
      some (("ls").toList, [("-la").toList, ("/tmp").toList]) := by
  refine c6_acyclic_alias_chain [] llStore (fun _ => 0) (("ll /tmp").toList) ?_ ?_
    (by decide) (by decide)
  · intro k v k1 v1 h1 h2 h3
    simp only [llStore, lookupStore] at h1 h3
    by_cases hk : k = ("ll").toList
    · rw [if_pos hk] at h1
      have hv : v = ("ls -la").toList := (Option.some.inj h1).symm
      subst hv
      rw [show pySplit (("ls -la").toList) = [("ls").toList, ("-la").toList] from by decide]
        at h2
      have hk1 : ("ls").toList = k1 := Option.some.inj h2
      subst hk1
      rw [if_neg (by decide)] at h3
      exact absurd h3 (by simp)
    · rw [if_neg hk] at h1
      exact absurd h1 (by simp)
  · intro k v h1
    simp only [llStore, lookupStore] at h1
    by_cases hk : k = ("ll").toList
    · rw [if_pos hk] at h1
      have hv : v = ("ls -la").toList := (Option.some.inj h1).symm
      subst hv
      exact ⟨by decide, by decide⟩
    · rw [if_neg hk] at h1
      exact absurd h1 (by simp)
